import Mathlib

/-!
Verification of `src/coffea/nanoevents/methods/candidate.py`, a mixin adding a
`charge` field to Lorentz-vector record arrays.

The shallow embedding models awkward record arrays as Lean structures whose
fields are lists of integers.  Fallible framework primitives (broadcasting
addition and axis-wise reduction) return `Except AkErr`.  The module-load
registration side effects on the external vector module's shared registries
(binary-dispatch table, rank list, behavior table) are modelled as explicit
state transformation.
-/

/-- A flat numeric awkward array is modelled as a list of integers. -/
abbrev Arr := List Int

/-- A depth-2 (possibly jagged) awkward array, used for `sum` reductions. -/
abbrev Arr2 := List Arr

/-- Errors raised by the external array framework's primitives: a
broadcasting failure between two array lengths, or an invalid reduction
axis. -/
inductive AkErr where
  | broadcast (la lb : Nat) : AkErr
  | axis (ax : Int) : AkErr
deriving DecidableEq, Repr

/-- Broadcast-compatible lengths: equal, or one side of length 1 (numpy
broadcasting rule for flat arrays). -/
def broadcastLen (la lb : Nat) : Option Nat :=
  if la = lb then some la
  else if la = 1 then some lb
  else if lb = 1 then some la
  else none

/-- Expand a length-1 array to length `n`; other arrays are returned as-is. -/
def bcast (a : Arr) (n : Nat) : Arr :=
  if a.length = 1 then List.replicate n (a.headD 0) else a

/-- Elementwise addition with broadcasting, as provided by the external
framework (`self.x + other.x` on awkward arrays).  Fails with a broadcast
error when the shapes are incompatible. -/
def akAdd (a b : Arr) : Except AkErr Arr :=
  match broadcastLen a.length b.length with
  | some n => .ok (List.zipWith (· + ·) (bcast a n) (bcast b n))
  | none => .error (.broadcast a.length b.length)

/-- Elementwise subtraction with broadcasting, the external framework's
`self.x - other.x`. -/
def akSub (a b : Arr) : Except AkErr Arr :=
  match broadcastLen a.length b.length with
  | some n => .ok (List.zipWith (· - ·) (bcast a n) (bcast b n))
  | none => .error (.broadcast a.length b.length)

/-- Jagged column-wise sum: entry `j` sums the `j`-th element of every row
that has one (awkward's `sum` along the outer axis of a jagged array). -/
def colSum (a : Arr2) : Arr :=
  (List.range (a.foldr (fun row m => max row.length m) 0)).map
    (fun j => (a.filterMap (fun row => row[j]?)).sum)

/-- The external framework's `awkward.sum(array, axis=axis)` on a depth-2
array: axis `-1`/`1` sums each inner list, axis `0`/`-2` sums column-wise;
any other axis raises. -/
def akSum (a : Arr2) (axis : Int) : Except AkErr Arr :=
  if axis = -1 ∨ axis = 1 then .ok (a.map (fun row => row.sum))
  else if axis = 0 ∨ axis = -2 then .ok (colSum a)
  else .error (.axis axis)

/-- A Candidate record array: a type tag (awkward's `with_name` parameter),
the five numeric fields `x`, `y`, `z`, `t`, `charge`, and an opaque
reference (an identifier) to the behavior registry the array carries. -/
structure Candidate where
  tag : String
  x : Arr
  y : Arr
  z : Arr
  t : Arr
  charge : Arr
  behavior : Nat
deriving DecidableEq, Repr

/-- An array of Candidates with one more dimension, the receiver shape for
`sum` reductions. -/
structure CandidateNested where
  tag : String
  x : Arr2
  y : Arr2
  z : Arr2
  t : Arr2
  charge : Arr2
  behavior : Nat
deriving DecidableEq, Repr

/-- `Candidate.add` from the source: zips the elementwise sums of `x`, `y`,
`z`, `t` and `charge` into a new record array with name `"Candidate"`,
carrying `self.behavior`. -/
def Candidate.add (self other : Candidate) : Except AkErr Candidate := do
  let x ← akAdd self.x other.x
  let y ← akAdd self.y other.y
  let z ← akAdd self.z other.z
  let t ← akAdd self.t other.t
  let charge ← akAdd self.charge other.charge
  .ok ⟨"Candidate", x, y, z, t, charge, self.behavior⟩

/-- `Candidate.sum` from the source (the Python default for `axis` is `-1`):
reduces each of the five fields independently with `awkward.sum` along the
given axis and zips the results into a record named `"Candidate"` carrying
`self.behavior`. -/
def Candidate.sum (self : CandidateNested) (axis : Int) : Except AkErr Candidate := do
  let x ← akSum self.x axis
  let y ← akSum self.y axis
  let z ← akSum self.z axis
  let t ← akSum self.t axis
  let charge ← akSum self.charge axis
  .ok ⟨"Candidate", x, y, z, t, charge, self.behavior⟩

/-- Broadcast compatibility of two flat arrays. -/
def compatArr (a b : Arr) : Bool := (broadcastLen a.length b.length).isSome

/-- Field-wise broadcast compatibility of two Candidate arrays: exactly the
condition under which none of the underlying additions raises. -/
def compatible (a b : Candidate) : Bool :=
  compatArr a.x b.x && compatArr a.y b.y && compatArr a.z b.z &&
    compatArr a.t b.t && compatArr a.charge b.charge

/-- Valid reduction axes for a depth-2 array, by the standard
negative-indexing convention. -/
def validAxis (axis : Int) : Bool :=
  axis = -1 || axis = 1 || axis = 0 || axis = -2

/-- The two binary operators whose dispatch entries the module registers
(`numpy.add` and `numpy.subtract`). -/
inductive Op where
  | add : Op
  | subtract : Op
deriving DecidableEq, Repr

/-- Type tags and implementation-class names are strings. -/
abbrev Tag := String

/-- An implementation-class name. -/
abbrev Cls := String

/-- A behavior-table value: the bound method `cls.op` (e.g. `out_to.add`). -/
structure Impl where
  cls : Cls
  op : Op
deriving DecidableEq, Repr

/-- A key of the behavior operator-dispatch table: `(operator, lhs, rhs)`. -/
abbrev BKey := Op × Tag × Tag

/-- The behavior operator-dispatch table, as a map from keys to entries. -/
abbrev Behavior := BKey → Option Impl

/-- Overwrite one behavior-table entry (`vector.behavior[key] = value`). -/
def bupd (b : Behavior) (k : BKey) (v : Impl) : Behavior :=
  fun q => if q = k then some v else b q

/-- Python `dict.update` with a single key: if the key is present its value
is overwritten in place, otherwise the pair is appended (dicts preserve
insertion order). -/
def dictUpdate (d : List (Tag × Cls)) (k : Tag) (v : Cls) : List (Tag × Cls) :=
  if d.any (fun p => p.1 = k) then
    d.map (fun p => if p.1 = k then (k, v) else p)
  else d ++ [(k, v)]

/-- Python `list.index`: position of the first occurrence (the model never
evaluates it on absent elements, where Python would raise `ValueError`). -/
def rankIndex (rank : List Cls) (c : Cls) : Nat := List.indexOf c rank

/-- `min(lhs_to, rhs_to, key=vector._rank.index)`: Python's `min` returns
the first argument when the keys tie. -/
def minByRank (rank : List Cls) (c1 c2 : Cls) : Cls :=
  if rankIndex rank c1 ≤ rankIndex rank c2 then c1 else c2

/-- The inner `for rhs, rhs_to in vector._binary_dispatch_cls.items()` loop
of the registration step, for a fixed outer pair `(lhs, lhs_to)`: for every
pair where either tag is `"Candidate"`, overwrite the addition and
subtraction entries with the winning class's bound methods. -/
def regInner (rank : List Cls) (d : List (Tag × Cls)) (lhs : Tag) (lhsTo : Cls)
    (b : Behavior) : Behavior :=
  d.foldl (fun b2 p =>
    if lhs = "Candidate" ∨ p.1 = "Candidate" then
      bupd (bupd b2 (Op.add, lhs, p.1) ⟨minByRank rank lhsTo p.2, Op.add⟩)
        (Op.subtract, lhs, p.1) ⟨minByRank rank lhsTo p.2, Op.subtract⟩
    else b2) b

/-- The full double loop over `vector._binary_dispatch_cls.items()`. -/
def regLoop (rank : List Cls) (d : List (Tag × Cls)) (b : Behavior) : Behavior :=
  d.foldl (fun b1 p => regInner rank d p.1 p.2 b1) b

/-- The external vector module's shared registries: the binary-dispatch
mapping from type tags to implementation classes (`_binary_dispatch_cls`,
an ordered dict), the precedence list (`_rank`), and the behavior
operator-dispatch table (`behavior`). -/
structure RegState where
  dispatch : List (Tag × Cls)
  rank : List Cls
  behavior : Behavior

/-- The module-load registration step (source lines 71-83):
`_binary_dispatch_cls.update({"Candidate": Candidate})`, then
`_rank += [Candidate]`, then the double dispatch-registration loop over the
updated dict using the extended rank list. -/
def registerStep (s : RegState) : RegState :=
  let d := dictUpdate s.dispatch "Candidate" "Candidate"
  let rank := s.rank ++ ["Candidate"]
  ⟨d, rank, regLoop rank d s.behavior⟩

/-- Modelled from the spec: the state of the external vector module's shared
registries before this module loads.  The vector module itself is not under
`src/`; the spec describes it as holding the already-registered vector type
tags, their precedence list, and an operator-dispatch table.  A
representative population with the three cartesian vector flavors is used
for concrete witnesses. -/
def initState : RegState :=
  ⟨[("TwoVector", "TwoVector"), ("ThreeVector", "ThreeVector"),
    ("LorentzVector", "LorentzVector")],
   ["TwoVector", "ThreeVector", "LorentzVector"],
   fun _ => none⟩

/-- Whether some iteration of the registration loop writes behavior key
`k`: both tags of `k` are keys of the dispatch dict and at least one side
is `"Candidate"`. -/
def loopWrites (d : List (Tag × Cls)) (k : BKey) : Prop :=
  ∃ p ∈ d, ∃ q ∈ d, k.2.1 = p.1 ∧ k.2.2 = q.1 ∧
    (p.1 = "Candidate" ∨ q.1 = "Candidate")

/-- The class-attribute assignments executed at module load (source lines
85-98), in program order, as (class, attribute, assigned value) triples.
The last block assigns `MomentumClass` on `PtEtaPhiECandidate` (the mixin
class), not on `PtEtaPhiECandidateArray`. -/
def moduleAttrAssignments : List (Cls × String × Cls) :=
  [("CandidateArray", "ProjectionClass2D", "TwoVectorArray"),
   ("CandidateArray", "ProjectionClass3D", "ThreeVectorArray"),
   ("CandidateArray", "ProjectionClass4D", "LorentzVectorArray"),
   ("CandidateArray", "MomentumClass", "CandidateArray"),
   ("PtEtaPhiMCandidateArray", "ProjectionClass2D", "TwoVectorArray"),
   ("PtEtaPhiMCandidateArray", "ProjectionClass3D", "ThreeVectorArray"),
   ("PtEtaPhiMCandidateArray", "ProjectionClass4D", "LorentzVectorArray"),
   ("PtEtaPhiMCandidateArray", "MomentumClass", "PtEtaPhiMCandidateArray"),
   ("PtEtaPhiECandidateArray", "ProjectionClass2D", "TwoVectorArray"),
   ("PtEtaPhiECandidateArray", "ProjectionClass3D", "ThreeVectorArray"),
   ("PtEtaPhiECandidateArray", "ProjectionClass4D", "LorentzVectorArray"),
   ("PtEtaPhiECandidate", "MomentumClass", "PtEtaPhiECandidateArray")]

/-- The attribute value assigned directly on class `c` at module load (the
last assignment wins), or `none` if the module never assigns `attr` on `c`
itself. -/
def assignedAttr (c : Cls) (attr : String) : Option Cls :=
  (moduleAttrAssignments.reverse.find? (fun e => e.1 == c && e.2.1 == attr)).map
    (fun e => e.2.2)

/-- Which methods each class body defines directly.  From the source,
`Candidate` defines exactly `add` and `sum` (no `subtract`).  The external
`LorentzVector` base is modelled from the spec: the registration step
points entries at each vector class's `add`/`subtract` methods, so the base
provides both, along with `sum`. -/
def classDefines (c : Cls) (m : String) : Bool :=
  if c = "Candidate" then m == "add" || m == "sum"
  else if c = "LorentzVector" then m == "add" || m == "subtract" || m == "sum"
  else false

/-- The method-resolution order of the `Candidate` mixin: its own body,
then the `vector.LorentzVector` base it subclasses. -/
def candidateMro : List Cls := ["Candidate", "LorentzVector"]

/-- Attribute lookup along a method-resolution order: the first class that
defines the method. -/
def resolveMethod (mro : List Cls) (m : String) : Option Cls :=
  mro.find? (fun c => classDefines c m)

/-- A record produced by the Lorentz-vector base's `subtract`: the four
components, an optional `charge` field (`none` means the record has no such
field), and the behavior reference. -/
structure LorentzVectorRec where
  tag : String
  x : Arr
  y : Arr
  z : Arr
  t : Arr
  charge : Option Arr
  behavior : Nat
deriving DecidableEq, Repr

/-- Modelled from the spec: `LorentzVector.subtract` of the external vector
module (not under `src/`).  Subtraction between Candidates dispatches to
this inherited method, which combines only the Lorentz-vector components
`x`, `y`, `z`, `t` elementwise and produces a record carrying no `charge`
field. -/
def LorentzVector.subtract (self other : Candidate) : Except AkErr LorentzVectorRec := do
  let x ← akSub self.x other.x
  let y ← akSub self.y other.y
  let z ← akSub self.z other.z
  let t ← akSub self.t other.t
  .ok ⟨"LorentzVector", x, y, z, t, none, self.behavior⟩

theorem akAdd_ok_of_compat (a b : Arr) (h : compatArr a b = true) :
    ∃ n, broadcastLen a.length b.length = some n ∧
      akAdd a b = .ok (List.zipWith (· + ·) (bcast a n) (bcast b n)) := by
  unfold compatArr at h
  rcases ho : broadcastLen a.length b.length with _ | n
  · rw [ho] at h; simp [Option.isSome] at h
  · exact ⟨n, rfl, by unfold akAdd; rw [ho]⟩

theorem bcast_eq (a : Arr) (n : Nat) (h : a.length = n) : bcast a n = a := by
  unfold bcast
  split
  · rename_i h1
    obtain ⟨v, rfl⟩ := List.length_eq_one.mp h1
    rw [← h, h1]
    rfl
  · rfl

theorem akAdd_eq_zipWith (a b : Arr) (h : a.length = b.length) :
    akAdd a b = .ok (List.zipWith (· + ·) a b) := by
  have hn : broadcastLen a.length b.length = some a.length := by
    unfold broadcastLen
    rw [if_pos h]
  unfold akAdd
  rw [hn]
  show Except.ok (List.zipWith (· + ·) (bcast a a.length) (bcast b a.length)) =
    Except.ok (List.zipWith (· + ·) a b)
  rw [bcast_eq a a.length rfl, bcast_eq b a.length h.symm]

theorem broadcastLen_comm (la lb : Nat) : broadcastLen la lb = broadcastLen lb la := by
  unfold broadcastLen
  split_ifs <;> simp_all

theorem akAdd_comm_ok (a b : Arr) (h : compatArr a b = true) :
    ∃ l, akAdd a b = .ok l ∧ akAdd b a = .ok l := by
  obtain ⟨n, hn, hab⟩ := akAdd_ok_of_compat a b h
  refine ⟨_, hab, ?_⟩
  unfold akAdd
  rw [broadcastLen_comm, hn]
  rw [List.zipWith_comm_of_comm (· + ·) Int.add_comm]

theorem compatArr_comm (a b : Arr) : compatArr a b = compatArr b a := by
  unfold compatArr
  rw [broadcastLen_comm]

theorem akAdd_isOk (a b : Arr) : (akAdd a b).isOk = compatArr a b := by
  unfold akAdd compatArr
  rcases h : broadcastLen a.length b.length with _ | n <;>
    simp [h, Except.isOk, Except.toBool]

theorem akSum_ok_of_valid (a : Arr2) (axis : Int) (h : validAxis axis = true) :
    ∃ l, akSum a axis = .ok l := by
  unfold validAxis at h
  simp only [Bool.or_eq_true, decide_eq_true_eq] at h
  unfold akSum
  rcases h with ((h | h) | h) | h <;> subst h <;> simp

theorem akSum_isOk (a : Arr2) (axis : Int) : (akSum a axis).isOk = validAxis axis := by
  unfold akSum validAxis
  split_ifs with h1 h2
  · rcases h1 with h | h <;> subst h <;> simp [Except.isOk, Except.toBool]
  · rcases h2 with h | h <;> subst h <;> simp [Except.isOk, Except.toBool]
  · push_neg at h1 h2
    simp [Except.isOk, Except.toBool, h1.1, h1.2, h2.1, h2.2]

/-- C1: for Candidate arrays `A`, `B` with matching or broadcastable field
shapes, `A.add(B)` returns a new array tagged `"Candidate"` whose `x`, `y`,
`z`, `t` and `charge` fields are the elementwise (broadcast) sums of the
corresponding fields; in particular, on matching shapes the result's charge
is exactly the elementwise `A.charge + B.charge`. -/
theorem candidate_add_elementwise_sums (a b : Candidate) (h : compatible a b = true) :
    ∃ r, Candidate.add a b = .ok r ∧ r.tag = "Candidate" ∧
      akAdd a.x b.x = .ok r.x ∧ akAdd a.y b.y = .ok r.y ∧
      akAdd a.z b.z = .ok r.z ∧ akAdd a.t b.t = .ok r.t ∧
      akAdd a.charge b.charge = .ok r.charge ∧
      (a.charge.length = b.charge.length →
        r.charge = List.zipWith (· + ·) a.charge b.charge) := by
  unfold compatible at h
  simp only [Bool.and_eq_true] at h
  obtain ⟨⟨⟨⟨h1, h2⟩, h3⟩, h4⟩, h5⟩ := h
  obtain ⟨nx, hnx, hx⟩ := akAdd_ok_of_compat _ _ h1
  obtain ⟨ny, hny, hy⟩ := akAdd_ok_of_compat _ _ h2
  obtain ⟨nz, hnz, hz⟩ := akAdd_ok_of_compat _ _ h3
  obtain ⟨nt, hnt, ht⟩ := akAdd_ok_of_compat _ _ h4
  obtain ⟨nc, hnc, hc⟩ := akAdd_ok_of_compat _ _ h5
  refine ⟨⟨"Candidate", _, _, _, _, _, a.behavior⟩, ?_, rfl, hx, hy, hz, ht, hc, ?_⟩
  · unfold Candidate.add
    rw [hx, hy, hz, ht, hc]
    rfl
  · intro hlen
    rw [akAdd_eq_zipWith a.charge b.charge hlen] at hc
    exact (Except.ok.inj hc).symm

/-- Witness for C1 at the spec's own example: `A = (x 1, y 0, z 0, t 1,
charge 1)`, `B = (x 0, y 1, z 0, t 1, charge -1)`. -/
theorem candidate_add_elementwise_sums_witness :
    compatible ⟨"Candidate", [1], [0], [0], [1], [1], 0⟩
        ⟨"Candidate", [0], [1], [0], [1], [-1], 0⟩ = true ∧
      ∃ r, Candidate.add ⟨"Candidate", [1], [0], [0], [1], [1], 0⟩
            ⟨"Candidate", [0], [1], [0], [1], [-1], 0⟩ = .ok r ∧
          r.tag = "Candidate" ∧
          akAdd [1] [0] = .ok r.x ∧ akAdd [0] [1] = .ok r.y ∧
          akAdd [0] [0] = .ok r.z ∧ akAdd [1] [1] = .ok r.t ∧
          akAdd [1] [-1] = .ok r.charge ∧
          (List.length [(1 : Int)] = List.length [(-1 : Int)] →
            r.charge = List.zipWith (· + ·) [1] [-1]) :=
  ⟨by decide, candidate_add_elementwise_sums _ _ (by decide)⟩

/-- C2: for every Candidate array and every valid axis (the Python default
is `-1`, and negative axes follow the standard convention), `sum(axis)`
returns a lower-rank Candidate obtained by reducing each of the five fields
`x`, `y`, `z`, `t`, `charge` independently along that axis with the
framework's `awkward.sum`; being a pure function of its inputs, it has no
side effects beyond producing the new value. -/
theorem candidate_sum_fieldwise_reduction (n : CandidateNested) (axis : Int)
    (h : validAxis axis = true) :
    ∃ r, Candidate.sum n axis = .ok r ∧ r.tag = "Candidate" ∧
      akSum n.x axis = .ok r.x ∧ akSum n.y axis = .ok r.y ∧
      akSum n.z axis = .ok r.z ∧ akSum n.t axis = .ok r.t ∧
      akSum n.charge axis = .ok r.charge ∧ r.behavior = n.behavior := by
  obtain ⟨lx, hx⟩ := akSum_ok_of_valid n.x axis h
  obtain ⟨ly, hy⟩ := akSum_ok_of_valid n.y axis h
  obtain ⟨lz, hz⟩ := akSum_ok_of_valid n.z axis h
  obtain ⟨lt, ht⟩ := akSum_ok_of_valid n.t axis h
  obtain ⟨lc, hc⟩ := akSum_ok_of_valid n.charge axis h
  refine ⟨⟨"Candidate", lx, ly, lz, lt, lc, n.behavior⟩, ?_, rfl, hx, hy, hz, ht, hc, rfl⟩
  unfold Candidate.sum
  rw [hx, hy, hz, ht, hc]
  rfl

/-- Witness for C2: three same-shaped candidates with charges 1, -1, 1
reduced along the default axis `-1` give a single candidate of charge 1. -/
theorem candidate_sum_fieldwise_reduction_witness :
    validAxis (-1) = true ∧
      ∃ r, Candidate.sum ⟨"Candidate", [[1, 2, 3]], [[0, 0, 0]], [[2, 2, 2]],
            [[5, 5, 5]], [[1, -1, 1]], 0⟩ (-1) = .ok r ∧
        r.tag = "Candidate" ∧
        akSum [[(1 : Int), 2, 3]] (-1) = .ok r.x ∧
        akSum [[(0 : Int), 0, 0]] (-1) = .ok r.y ∧
        akSum [[(2 : Int), 2, 2]] (-1) = .ok r.z ∧
        akSum [[(5 : Int), 5, 5]] (-1) = .ok r.t ∧
        akSum [[(1 : Int), -1, 1]] (-1) = .ok r.charge ∧ r.behavior = 0 :=
  ⟨by decide, candidate_sum_fieldwise_reduction _ _ (by decide)⟩

/-- C7: for all valid Candidate arrays `A`, `B` (broadcast-compatible
fields), `A.add(B)` equals `B.add(A)` field-for-field on all five fields. -/
theorem candidate_add_comm_fields (a b : Candidate) (h : compatible a b = true) :
    ∃ r s, Candidate.add a b = .ok r ∧ Candidate.add b a = .ok s ∧
      r.x = s.x ∧ r.y = s.y ∧ r.z = s.z ∧ r.t = s.t ∧ r.charge = s.charge := by
  unfold compatible at h
  simp only [Bool.and_eq_true] at h
  obtain ⟨⟨⟨⟨h1, h2⟩, h3⟩, h4⟩, h5⟩ := h
  obtain ⟨vx, hx, hx2⟩ := akAdd_comm_ok _ _ h1
  obtain ⟨vy, hy, hy2⟩ := akAdd_comm_ok _ _ h2
  obtain ⟨vz, hz, hz2⟩ := akAdd_comm_ok _ _ h3
  obtain ⟨vt, ht, ht2⟩ := akAdd_comm_ok _ _ h4
  obtain ⟨vc, hc, hc2⟩ := akAdd_comm_ok _ _ h5
  refine ⟨⟨"Candidate", vx, vy, vz, vt, vc, a.behavior⟩,
    ⟨"Candidate", vx, vy, vz, vt, vc, b.behavior⟩, ?_, ?_, rfl, rfl, rfl, rfl, rfl⟩
  · unfold Candidate.add
    rw [hx, hy, hz, ht, hc]
    rfl
  · unfold Candidate.add
    rw [hx2, hy2, hz2, ht2, hc2]
    rfl

/-- Witness for C7 at concrete broadcast-compatible inputs. -/
theorem candidate_add_comm_fields_witness :
    compatible ⟨"Candidate", [1, 2], [3], [0, 5], [7, 7], [1, -1], 0⟩
        ⟨"Candidate", [4, 4], [2], [1, 1], [9], [1, 1], 3⟩ = true ∧
      ∃ r s, Candidate.add ⟨"Candidate", [1, 2], [3], [0, 5], [7, 7], [1, -1], 0⟩
            ⟨"Candidate", [4, 4], [2], [1, 1], [9], [1, 1], 3⟩ = .ok r ∧
        Candidate.add ⟨"Candidate", [4, 4], [2], [1, 1], [9], [1, 1], 3⟩
            ⟨"Candidate", [1, 2], [3], [0, 5], [7, 7], [1, -1], 0⟩ = .ok s ∧
        r.x = s.x ∧ r.y = s.y ∧ r.z = s.z ∧ r.t = s.t ∧ r.charge = s.charge :=
  ⟨by decide, candidate_add_comm_fields _ _ (by decide)⟩

theorem candidate_add_isOk_eq (a b : Candidate) :
    (Candidate.add a b).isOk = compatible a b := by
  unfold Candidate.add compatible
  rw [← akAdd_isOk a.x b.x, ← akAdd_isOk a.y b.y, ← akAdd_isOk a.z b.z,
    ← akAdd_isOk a.t b.t, ← akAdd_isOk a.charge b.charge]
  rcases akAdd a.x b.x with e | v <;> rcases akAdd a.y b.y with e | v2 <;>
    rcases akAdd a.z b.z with e | v3 <;> rcases akAdd a.t b.t with e | v4 <;>
    rcases akAdd a.charge b.charge with e | v5 <;>
    simp [Except.isOk, Except.toBool, bind, Except.bind]

theorem candidate_sum_isOk_eq (n : CandidateNested) (axis : Int) :
    (Candidate.sum n axis).isOk = validAxis axis := by
  unfold Candidate.sum
  rw [← akSum_isOk n.x axis]
  rcases hx : akSum n.x axis with e | v
  · simp [Except.isOk, Except.toBool, bind, Except.bind]
  · have hb : validAxis axis = true := by rw [← akSum_isOk n.x axis, hx]; rfl
    obtain ⟨ly, hy⟩ := akSum_ok_of_valid n.y axis hb
    obtain ⟨lz, hz⟩ := akSum_ok_of_valid n.z axis hb
    obtain ⟨lt, ht⟩ := akSum_ok_of_valid n.t axis hb
    obtain ⟨lc, hc⟩ := akSum_ok_of_valid n.charge axis hb
    rw [hy, hz, ht, hc]
    simp [Except.isOk, Except.toBool, bind, Except.bind]

/-- C9: `add` and `sum` perform no validation of their own and raise no
error kinds of their own: `add` succeeds exactly when every underlying
broadcast addition succeeds, `sum` succeeds exactly when the underlying
reduction accepts the axis, and any error value returned is exactly the
error raised by one of the underlying framework primitives, unchanged. -/
theorem candidate_errors_propagate (a b : Candidate) (n : CandidateNested) (axis : Int) :
    ((Candidate.add a b).isOk = (compatArr a.x b.x && compatArr a.y b.y &&
        compatArr a.z b.z && compatArr a.t b.t && compatArr a.charge b.charge)) ∧
      (∀ e, Candidate.add a b = .error e →
        akAdd a.x b.x = .error e ∨ akAdd a.y b.y = .error e ∨
          akAdd a.z b.z = .error e ∨ akAdd a.t b.t = .error e ∨
          akAdd a.charge b.charge = .error e) ∧
      ((Candidate.sum n axis).isOk = validAxis axis) ∧
      (∀ e, Candidate.sum n axis = .error e →
        akSum n.x axis = .error e ∨ akSum n.y axis = .error e ∨
          akSum n.z axis = .error e ∨ akSum n.t axis = .error e ∨
          akSum n.charge axis = .error e) := by
  refine ⟨candidate_add_isOk_eq a b, ?_, candidate_sum_isOk_eq n axis, ?_⟩
  · intro e he
    unfold Candidate.add at he
    rcases h1 : akAdd a.x b.x with e1 | v1 <;> rw [h1] at he <;>
      rcases h2 : akAdd a.y b.y with e2 | v2 <;> rw [h2] at he <;>
      rcases h3 : akAdd a.z b.z with e3 | v3 <;> rw [h3] at he <;>
      rcases h4 : akAdd a.t b.t with e4 | v4 <;> rw [h4] at he <;>
      rcases h5 : akAdd a.charge b.charge with e5 | v5 <;> rw [h5] at he <;>
      simp [bind, Except.bind] at he <;> simp [he]
  · intro e he
    unfold Candidate.sum at he
    rcases h1 : akSum n.x axis with e1 | v1 <;> rw [h1] at he <;>
      rcases h2 : akSum n.y axis with e2 | v2 <;> rw [h2] at he <;>
      rcases h3 : akSum n.z axis with e3 | v3 <;> rw [h3] at he <;>
      rcases h4 : akSum n.t axis with e4 | v4 <;> rw [h4] at he <;>
      rcases h5 : akSum n.charge axis with e5 | v5 <;> rw [h5] at he <;>
      simp [bind, Except.bind] at he <;> simp [he]

/-- Witness for C9: an incompatible pair (lengths 2 and 3 in `y`) produces
exactly the underlying broadcast error; an invalid axis 5 likewise. -/
theorem candidate_errors_propagate_witness :
    ((Candidate.add ⟨"Candidate", [1], [1, 2], [0], [0], [1], 0⟩
          ⟨"Candidate", [1], [1, 2, 3], [0], [0], [1], 0⟩).isOk =
        (compatArr [1] [1] && compatArr [1, 2] [1, 2, 3] && compatArr [0] [0] &&
          compatArr [0] [0] && compatArr [1] [1])) ∧
      (∀ e, Candidate.add ⟨"Candidate", [1], [1, 2], [0], [0], [1], 0⟩
            ⟨"Candidate", [1], [1, 2, 3], [0], [0], [1], 0⟩ = .error e →
        akAdd [1] [1] = .error e ∨ akAdd [1, 2] [1, 2, 3] = .error e ∨
          akAdd [0] [0] = .error e ∨ akAdd [0] [0] = .error e ∨
          akAdd [1] [1] = .error e) ∧
      ((Candidate.sum ⟨"Candidate", [[1]], [[1]], [[1]], [[1]], [[1]], 0⟩ 5).isOk =
        validAxis 5) ∧
      (∀ e, Candidate.sum ⟨"Candidate", [[1]], [[1]], [[1]], [[1]], [[1]], 0⟩ 5 = .error e →
        akSum [[(1 : Int)]] 5 = .error e ∨ akSum [[(1 : Int)]] 5 = .error e ∨
          akSum [[(1 : Int)]] 5 = .error e ∨ akSum [[(1 : Int)]] 5 = .error e ∨
          akSum [[(1 : Int)]] 5 = .error e) :=
  candidate_errors_propagate ⟨"Candidate", [1], [1, 2], [0], [0], [1], 0⟩
    ⟨"Candidate", [1], [1, 2, 3], [0], [0], [1], 0⟩
    ⟨"Candidate", [[1]], [[1]], [[1]], [[1]], [[1]], 0⟩ 5

/-- C4 counterexample: adding two arrays tagged `"PtEtaPhiMCandidate"`
succeeds but the result is tagged `"Candidate"` (the source hardcodes
`with_name="Candidate"`), not the input's tag. -/
theorem add_preserves_tag_counterexample :
    Candidate.add ⟨"PtEtaPhiMCandidate", [1], [1], [1], [1], [1], 0⟩
        ⟨"PtEtaPhiMCandidate", [1], [1], [1], [1], [1], 0⟩ =
      .ok ⟨"Candidate", [2], [2], [2], [2], [2], 0⟩ ∧
      ¬ ("Candidate" =
        (Candidate.mk "PtEtaPhiMCandidate" [1] [1] [1] [1] [1] 0).tag) :=
  ⟨rfl, by decide⟩

/-- C4 amended: every array returned by `add` or `sum` carries the tag
`"Candidate"` — which coincides with the input's tag only for inputs tagged
`"Candidate"` — and carries the behavior registry reference of the
receiving (`self`) input. -/
theorem add_sum_result_tag_candidate (a b : Candidate) (n : CandidateNested) (axis : Int) :
    (∀ r, Candidate.add a b = .ok r → r.tag = "Candidate" ∧ r.behavior = a.behavior) ∧
      (∀ r, Candidate.sum n axis = .ok r → r.tag = "Candidate" ∧ r.behavior = n.behavior) := by
  constructor
  · intro r hr
    unfold Candidate.add at hr
    rcases h1 : akAdd a.x b.x with e1 | v1 <;> rw [h1] at hr <;>
      rcases h2 : akAdd a.y b.y with e2 | v2 <;> rw [h2] at hr <;>
      rcases h3 : akAdd a.z b.z with e3 | v3 <;> rw [h3] at hr <;>
      rcases h4 : akAdd a.t b.t with e4 | v4 <;> rw [h4] at hr <;>
      rcases h5 : akAdd a.charge b.charge with e5 | v5 <;> rw [h5] at hr <;>
      simp [bind, Except.bind] at hr
    rw [← hr]
    exact ⟨rfl, rfl⟩
  · intro r hr
    unfold Candidate.sum at hr
    rcases h1 : akSum n.x axis with e1 | v1 <;> rw [h1] at hr <;>
      rcases h2 : akSum n.y axis with e2 | v2 <;> rw [h2] at hr <;>
      rcases h3 : akSum n.z axis with e3 | v3 <;> rw [h3] at hr <;>
      rcases h4 : akSum n.t axis with e4 | v4 <;> rw [h4] at hr <;>
      rcases h5 : akSum n.charge axis with e5 | v5 <;> rw [h5] at hr <;>
      simp [bind, Except.bind] at hr
    rw [← hr]
    exact ⟨rfl, rfl⟩

/-- Witness for C4 (amended) on a `"PtEtaPhiECandidate"`-tagged input whose
`add` result is the concrete record tagged `"Candidate"`. -/
theorem add_sum_result_tag_candidate_witness :
    (Candidate.mk "Candidate" [2] [4] [6] [8] [0] 7).tag = "Candidate" ∧
      (Candidate.mk "Candidate" [2] [4] [6] [8] [0] 7).behavior =
        (Candidate.mk "PtEtaPhiECandidate" [1] [2] [3] [4] [1] 7).behavior :=
  (add_sum_result_tag_candidate ⟨"PtEtaPhiECandidate", [1], [2], [3], [4], [1], 7⟩
      ⟨"PtEtaPhiECandidate", [1], [2], [3], [4], [-1], 9⟩
      ⟨"Candidate", [[1]], [[1]], [[1]], [[1]], [[1]], 0⟩ (-1)).1
    ⟨"Candidate", [2], [4], [6], [8], [0], 7⟩ rfl

/-- C5 counterexample: the module never assigns `MomentumClass` on
`PtEtaPhiECandidateArray` itself — the last block assigns it on the mixin
class `PtEtaPhiECandidate` instead — so the claim that each of the three
array classes has its `MomentumClass` attribute set to the array class
itself fails for the energy-coordinate variant. -/
theorem momentum_class_assignment_counterexample :
    assignedAttr "PtEtaPhiECandidateArray" "MomentumClass" = none ∧
      ¬ assignedAttr "PtEtaPhiECandidateArray" "MomentumClass" =
        some "PtEtaPhiECandidateArray" := by
  decide

/-- C5 amended: all three array classes get `ProjectionClass2D`,
`ProjectionClass3D` (and `ProjectionClass4D`) set to the framework's
2D/3D/4D vector array classes; `MomentumClass` is set to the array class
itself on `CandidateArray` and `PtEtaPhiMCandidateArray`, while for the
energy variant the assignment is made on the mixin class
`PtEtaPhiECandidate` (with value `PtEtaPhiECandidateArray`), not on
`PtEtaPhiECandidateArray`. -/
theorem projection_momentum_assignments :
    assignedAttr "CandidateArray" "ProjectionClass2D" = some "TwoVectorArray" ∧
      assignedAttr "CandidateArray" "ProjectionClass3D" = some "ThreeVectorArray" ∧
      assignedAttr "CandidateArray" "ProjectionClass4D" = some "LorentzVectorArray" ∧
      assignedAttr "CandidateArray" "MomentumClass" = some "CandidateArray" ∧
      assignedAttr "PtEtaPhiMCandidateArray" "ProjectionClass2D" = some "TwoVectorArray" ∧
      assignedAttr "PtEtaPhiMCandidateArray" "ProjectionClass3D" = some "ThreeVectorArray" ∧
      assignedAttr "PtEtaPhiMCandidateArray" "ProjectionClass4D" = some "LorentzVectorArray" ∧
      assignedAttr "PtEtaPhiMCandidateArray" "MomentumClass" =
        some "PtEtaPhiMCandidateArray" ∧
      assignedAttr "PtEtaPhiECandidateArray" "ProjectionClass2D" = some "TwoVectorArray" ∧
      assignedAttr "PtEtaPhiECandidateArray" "ProjectionClass3D" = some "ThreeVectorArray" ∧
      assignedAttr "PtEtaPhiECandidateArray" "ProjectionClass4D" = some "LorentzVectorArray" ∧
      assignedAttr "PtEtaPhiECandidateArray" "MomentumClass" = none ∧
      assignedAttr "PtEtaPhiECandidate" "MomentumClass" = some "PtEtaPhiECandidateArray" := by
  decide

theorem mem_dictUpdate (d : List (Tag × Cls)) (k : Tag) (v : Cls) (q : Tag × Cls)
    (h : q ∈ dictUpdate d k v) : (q ∈ d ∧ q.1 ≠ k) ∨ q = (k, v) := by
  unfold dictUpdate at h
  split_ifs at h with hc
  · obtain ⟨p, hp, hpq⟩ := List.mem_map.mp h
    by_cases hk : p.1 = k
    · rw [if_pos hk] at hpq
      exact Or.inr hpq.symm
    · rw [if_neg hk] at hpq
      exact Or.inl ⟨hpq ▸ hp, hpq ▸ hk⟩
  · rcases List.mem_append.mp h with h1 | h1
    · refine Or.inl ⟨h1, ?_⟩
      intro hq
      have : d.any (fun p => p.1 = k) = true :=
        List.any_eq_true.mpr ⟨q, h1, decide_eq_true hq⟩
      exact hc this
    · exact Or.inr (by simpa using h1)

theorem mem_dictUpdate_self (d : List (Tag × Cls)) (k : Tag) (v : Cls) :
    (k, v) ∈ dictUpdate d k v := by
  unfold dictUpdate
  split_ifs with hc
  · obtain ⟨p, hp, hpk⟩ := List.any_eq_true.mp hc
    have hpk' : p.1 = k := of_decide_eq_true hpk
    refine List.mem_map.mpr ⟨p, hp, ?_⟩
    rw [if_pos hpk']
  · simp

theorem keyed_dictUpdate (d : List (Tag × Cls)) (k : Tag) (v : Cls) (q : Tag × Cls)
    (h : q ∈ dictUpdate d k v) (hq : q.1 = k) : q = (k, v) := by
  rcases mem_dictUpdate d k v q h with ⟨_, hne⟩ | he
  · exact absurd hq hne
  · exact he

theorem nodup_keys_dictUpdate (d : List (Tag × Cls)) (k : Tag) (v : Cls)
    (h : (d.map Prod.fst).Nodup) : ((dictUpdate d k v).map Prod.fst).Nodup := by
  unfold dictUpdate
  split_ifs with hc
  · have : (d.map (fun p => if p.1 = k then (k, v) else p)).map Prod.fst =
        d.map Prod.fst := by
      rw [List.map_map]
      apply List.map_congr_left
      intro p _
      by_cases hk : p.1 = k
      · simp [hk]
      · simp [hk]
    rw [this]
    exact h
  · rw [List.map_append]
    simp only [List.map_cons, List.map_nil]
    rw [List.nodup_append]
    refine ⟨h, List.nodup_singleton k, ?_⟩
    intro t ht
    simp only [List.mem_singleton]
    intro hk
    subst hk
    obtain ⟨p, hp, hpk⟩ := List.mem_map.mp ht
    have : d.any (fun p => p.1 = t) = true :=
      List.any_eq_true.mpr ⟨p, hp, decide_eq_true hpk⟩
    exact hc this

theorem regInner_cons (rank : List Cls) (p : Tag × Cls) (rest : List (Tag × Cls))
    (lhs : Tag) (lhsTo : Cls) (b : Behavior) :
    regInner rank (p :: rest) lhs lhsTo b = regInner rank rest lhs lhsTo
      (if lhs = "Candidate" ∨ p.1 = "Candidate" then
        bupd (bupd b (Op.add, lhs, p.1) ⟨minByRank rank lhsTo p.2, Op.add⟩)
          (Op.subtract, lhs, p.1) ⟨minByRank rank lhsTo p.2, Op.subtract⟩
      else b) := by
  unfold regInner
  rw [List.foldl_cons]

theorem regInner_not_written (rank : List Cls) (d : List (Tag × Cls)) (lhs : Tag)
    (lhsTo : Cls) (b : Behavior) (k : BKey)
    (h : ∀ q ∈ d, ¬ (k.2.1 = lhs ∧ k.2.2 = q.1 ∧ (lhs = "Candidate" ∨ q.1 = "Candidate"))) :
    regInner rank d lhs lhsTo b k = b k := by
  induction d generalizing b with
  | nil => rfl
  | cons p rest ih =>
    rw [regInner_cons]
    rw [ih _ (fun q hq => h q (List.mem_cons_of_mem p hq))]
    split_ifs with hg
    · have hne : ¬ (k.2.1 = lhs ∧ k.2.2 = p.1) := by
        intro hk
        exact h p (List.mem_cons_self p rest) ⟨hk.1, hk.2, hg⟩
      unfold bupd
      rw [if_neg, if_neg]
      · intro hk
        exact hne ⟨congrArg (fun q => q.2.1) hk, congrArg (fun q => q.2.2) hk⟩
      · intro hk
        exact hne ⟨congrArg (fun q => q.2.1) hk, congrArg (fun q => q.2.2) hk⟩
    · rfl

theorem regInner_written (rank : List Cls) (d : List (Tag × Cls)) (lhs : Tag)
    (lhsTo : Cls) (b : Behavior) (rhs : Tag) (rhsTo : Cls)
    (hnd : (d.map Prod.fst).Nodup) (hmem : (rhs, rhsTo) ∈ d)
    (hg : lhs = "Candidate" ∨ rhs = "Candidate") (op : Op) :
    regInner rank d lhs lhsTo b (op, lhs, rhs) = some ⟨minByRank rank lhsTo rhsTo, op⟩ := by
  induction d generalizing b with
  | nil => cases hmem
  | cons p rest ih =>
    rw [regInner_cons]
    rw [List.map_cons] at hnd
    have hkeys := List.nodup_cons.mp hnd
    rcases List.mem_cons.mp hmem with h | h
    · subst h
      rw [regInner_not_written]
      · rw [if_pos hg]
        cases op <;> simp [bupd]
      · intro q hq hcontr
        have hmm : q.1 ∈ rest.map Prod.fst := List.mem_map.mpr ⟨q, hq, rfl⟩
        have h22 : rhs = q.1 := hcontr.2.1
        rw [← h22] at hmm
        exact hkeys.1 hmm
    · exact ih _ hkeys.2 h

theorem regOuter_not_written (rank : List Cls) (d l : List (Tag × Cls)) (b : Behavior)
    (k : BKey) (hsub : ∀ p ∈ l, p ∈ d) (h : ¬ loopWrites d k) :
    List.foldl (fun b1 p => regInner rank d p.1 p.2 b1) b l k = b k := by
  induction l generalizing b with
  | nil => rfl
  | cons p rest ih =>
    rw [List.foldl_cons]
    rw [ih _ (fun q hq => hsub q (List.mem_cons_of_mem p hq))]
    apply regInner_not_written
    intro q hq hcontr
    exact h ⟨p, hsub p (List.mem_cons_self p rest), q, hq, hcontr.1, hcontr.2.1, hcontr.2.2⟩

theorem regLoop_not_written (rank : List Cls) (d : List (Tag × Cls)) (b : Behavior)
    (k : BKey) (h : ¬ loopWrites d k) : regLoop rank d b k = b k :=
  regOuter_not_written rank d d b k (fun _ hp => hp) h

theorem regOuter_frame_lhs (rank : List Cls) (d l : List (Tag × Cls)) (b : Behavior)
    (k : BKey) (h : k.2.1 ∉ l.map Prod.fst) :
    List.foldl (fun b1 p => regInner rank d p.1 p.2 b1) b l k = b k := by
  induction l generalizing b with
  | nil => rfl
  | cons p rest ih =>
    rw [List.foldl_cons]
    rw [List.map_cons, List.mem_cons] at h
    push_neg at h
    rw [ih _ h.2]
    apply regInner_not_written
    intro q hq hcontr
    exact h.1 hcontr.1

theorem regOuter_written (rank : List Cls) (d l : List (Tag × Cls)) (b : Behavior)
    (lhs : Tag) (lhsTo : Cls) (rhs : Tag) (rhsTo : Cls)
    (hndd : (d.map Prod.fst).Nodup) (hndl : (l.map Prod.fst).Nodup)
    (hl : (lhs, lhsTo) ∈ l) (hr : (rhs, rhsTo) ∈ d)
    (hg : lhs = "Candidate" ∨ rhs = "Candidate") (op : Op) :
    List.foldl (fun b1 p => regInner rank d p.1 p.2 b1) b l (op, lhs, rhs) =
      some ⟨minByRank rank lhsTo rhsTo, op⟩ := by
  induction l generalizing b with
  | nil => cases hl
  | cons p rest ih =>
    rw [List.foldl_cons]
    rw [List.map_cons] at hndl
    have hkeys := List.nodup_cons.mp hndl
    rcases List.mem_cons.mp hl with h | h
    · subst h
      rw [regOuter_frame_lhs rank d rest _ _ hkeys.1]
      exact regInner_written rank d lhs lhsTo _ rhs rhsTo hndd hr hg op
    · exact ih _ hkeys.2 h

theorem regLoop_written (rank : List Cls) (d : List (Tag × Cls)) (b : Behavior)
    (lhs : Tag) (lhsTo : Cls) (rhs : Tag) (rhsTo : Cls)
    (hnd : (d.map Prod.fst).Nodup) (hl : (lhs, lhsTo) ∈ d) (hr : (rhs, rhsTo) ∈ d)
    (hg : lhs = "Candidate" ∨ rhs = "Candidate") (op : Op) :
    regLoop rank d b (op, lhs, rhs) = some ⟨minByRank rank lhsTo rhsTo, op⟩ :=
  regOuter_written rank d d b lhs lhsTo rhs rhsTo hnd hnd hl hr hg op

theorem minByRank_index (rank : List Cls) (a b : Cls) :
    rankIndex rank (minByRank rank a b) = min (rankIndex rank a) (rankIndex rank b) := by
  unfold minByRank
  split_ifs with h
  · exact (min_eq_left h).symm
  · exact (min_eq_right (le_of_not_le h)).symm

theorem minByRank_symm (rank : List Cls) (a b : Cls) (ha : a ∈ rank) (hb : b ∈ rank) :
    minByRank rank a b = minByRank rank b a := by
  unfold minByRank rankIndex
  rcases lt_trichotomy (List.indexOf a rank) (List.indexOf b rank) with h | h | h
  · rw [if_pos h.le, if_neg (not_le.mpr h)]
  · have hab : a = b := (List.indexOf_inj ha hb).mp h
    subst hab
    rfl
  · rw [if_neg (not_le.mpr h), if_pos h.le]

theorem minByRank_append_stable (rank l : List Cls) (a b : Cls)
    (ha : a ∈ rank) (hb : b ∈ rank) :
    minByRank (rank ++ l) a b = minByRank rank a b := by
  unfold minByRank rankIndex
  rw [List.indexOf_append_of_mem ha, List.indexOf_append_of_mem hb]

theorem mem_rank_after_update (s : RegState) (p : Tag × Cls)
    (hrk : ∀ q ∈ s.dispatch, q.2 ∈ s.rank)
    (hp : p ∈ dictUpdate s.dispatch "Candidate" "Candidate") :
    p.2 ∈ s.rank ++ ["Candidate"] := by
  rcases mem_dictUpdate _ _ _ _ hp with ⟨hmem, _⟩ | he
  · exact List.mem_append_left _ (hrk p hmem)
  · rw [he]
    exact List.mem_append_right _ (List.mem_singleton.mpr rfl)

/-- C3: after the registration step, for every pair of entries of the
binary-dispatch table in which either tag is `"Candidate"`, the behavior
table maps the addition and subtraction keys to the bound method of the
class with the minimal index in the rank list among the two operand
implementation classes, and the winning class is the same for both operand
orders. -/
theorem dispatch_registration_min_rank (s : RegState)
    (hnd : (s.dispatch.map Prod.fst).Nodup)
    (hrk : ∀ p ∈ s.dispatch, p.2 ∈ s.rank)
    (lhs : Tag) (lhsTo : Cls) (rhs : Tag) (rhsTo : Cls)
    (hl : (lhs, lhsTo) ∈ (registerStep s).dispatch)
    (hr : (rhs, rhsTo) ∈ (registerStep s).dispatch)
    (hg : lhs = "Candidate" ∨ rhs = "Candidate") :
    (registerStep s).behavior (Op.add, lhs, rhs) =
        some ⟨minByRank (registerStep s).rank lhsTo rhsTo, Op.add⟩ ∧
      (registerStep s).behavior (Op.subtract, lhs, rhs) =
        some ⟨minByRank (registerStep s).rank lhsTo rhsTo, Op.subtract⟩ ∧
      rankIndex (registerStep s).rank (minByRank (registerStep s).rank lhsTo rhsTo) =
        min (rankIndex (registerStep s).rank lhsTo)
          (rankIndex (registerStep s).rank rhsTo) ∧
      minByRank (registerStep s).rank lhsTo rhsTo =
        minByRank (registerStep s).rank rhsTo lhsTo := by
  have hnd' : (((registerStep s).dispatch).map Prod.fst).Nodup :=
    nodup_keys_dictUpdate _ _ _ hnd
  refine ⟨?_, ?_, minByRank_index _ _ _, ?_⟩
  · exact regLoop_written _ _ _ lhs lhsTo rhs rhsTo hnd' hl hr hg Op.add
  · exact regLoop_written _ _ _ lhs lhsTo rhs rhsTo hnd' hl hr hg Op.subtract
  · exact minByRank_symm _ _ _ (mem_rank_after_update s (lhs, lhsTo) hrk hl)
      (mem_rank_after_update s (rhs, rhsTo) hrk hr)

/-- Witness for C3: in the modelled initial registry, the pair
(`"LorentzVector"`, `"Candidate"`) gets entries pointing at
`"LorentzVector"` (rank index 2, versus 3 for `"Candidate"`), the same
winner as for the flipped pair. -/
theorem dispatch_registration_min_rank_witness :
    ((initState.dispatch.map Prod.fst).Nodup ∧
        (∀ p ∈ initState.dispatch, p.2 ∈ initState.rank) ∧
        ("LorentzVector", "LorentzVector") ∈ (registerStep initState).dispatch ∧
        ("Candidate", "Candidate") ∈ (registerStep initState).dispatch) ∧
      (registerStep initState).behavior (Op.add, "LorentzVector", "Candidate") =
        some ⟨minByRank (registerStep initState).rank "LorentzVector" "Candidate",
          Op.add⟩ ∧
      (registerStep initState).behavior (Op.subtract, "LorentzVector", "Candidate") =
        some ⟨minByRank (registerStep initState).rank "LorentzVector" "Candidate",
          Op.subtract⟩ ∧
      rankIndex (registerStep initState).rank
          (minByRank (registerStep initState).rank "LorentzVector" "Candidate") =
        min (rankIndex (registerStep initState).rank "LorentzVector")
          (rankIndex (registerStep initState).rank "Candidate") ∧
      minByRank (registerStep initState).rank "LorentzVector" "Candidate" =
        minByRank (registerStep initState).rank "Candidate" "LorentzVector" :=
  ⟨⟨by decide, by decide, by decide, by decide⟩,
    dispatch_registration_min_rank initState (by decide) (by decide)
      "LorentzVector" "LorentzVector" "Candidate" "Candidate"
      (by decide) (by decide) (Or.inr rfl)⟩

/-- C8: the registration step neither removes nor alters any behavior-table
entry whose key involves no `"Candidate"` tag on either side: such entries
are exactly as before module load. -/
theorem registration_preserves_non_candidate_entries (s : RegState) (op : Op)
    (l r : Tag) (hl : l ≠ "Candidate") (hr : r ≠ "Candidate") :
    (registerStep s).behavior (op, l, r) = s.behavior (op, l, r) := by
  apply regLoop_not_written
  rintro ⟨p, _, q, _, h1, h2, h3 | h3⟩
  · exact hl (h1.trans h3)
  · exact hr (h2.trans h3)

/-- Witness for C8: a pre-existing `("TwoVector", "ThreeVector")` addition
entry survives the registration step untouched. -/
theorem registration_preserves_non_candidate_entries_witness :
    ("TwoVector" : Tag) ≠ "Candidate" ∧ ("ThreeVector" : Tag) ≠ "Candidate" ∧
      (registerStep ⟨initState.dispatch, initState.rank,
            bupd (fun _ => none) (Op.add, "TwoVector", "ThreeVector")
              ⟨"TwoVector", Op.add⟩⟩).behavior (Op.add, "TwoVector", "ThreeVector") =
        (bupd (fun _ => none) (Op.add, "TwoVector", "ThreeVector")
          ⟨"TwoVector", Op.add⟩) (Op.add, "TwoVector", "ThreeVector") :=
  ⟨by decide, by decide,
    registration_preserves_non_candidate_entries
      ⟨initState.dispatch, initState.rank,
        bupd (fun _ => none) (Op.add, "TwoVector", "ThreeVector") ⟨"TwoVector", Op.add⟩⟩
      Op.add "TwoVector" "ThreeVector" (by decide) (by decide)⟩

/-- C6 counterexample: running the registration step twice on the modelled
initial registries does not leave the rank list in the same state as
running it once — a duplicate `"Candidate"` entry is appended. -/
theorem register_twice_counterexample :
    ¬ (registerStep (registerStep initState)).rank = (registerStep initState).rank ∧
      (registerStep (registerStep initState)).rank =
        ["TwoVector", "ThreeVector", "LorentzVector", "Candidate", "Candidate"] ∧
      (registerStep initState).rank =
        ["TwoVector", "ThreeVector", "LorentzVector", "Candidate"] := by
  refine ⟨?_, rfl, rfl⟩
  decide

theorem dictUpdate_stable (d : List (Tag × Cls)) (k : Tag) (v : Cls)
    (hmem : (k, v) ∈ d) (hkey : ∀ q ∈ d, q.1 = k → q = (k, v)) :
    dictUpdate d k v = d := by
  unfold dictUpdate
  rw [if_pos (List.any_eq_true.mpr ⟨(k, v), hmem, decide_eq_true rfl⟩)]
  have hid : ∀ q ∈ d, (if q.1 = k then (k, v) else q) = q := by
    intro q hq
    by_cases hk : q.1 = k
    · rw [if_pos hk]
      exact (hkey q hq hk).symm
    · rw [if_neg hk]
  rw [List.map_congr_left hid, List.map_id']

/-- C6 amended: re-running the registration step leaves the binary-dispatch
mapping and the behavior operator-dispatch table in exactly the same state
(every entry is overwritten with an identical value), but the rank list is
not left identical: a duplicate `"Candidate"` is appended.  The duplicate
is inert — the first-occurrence index of every class present after one run
is unchanged. -/
theorem register_twice_dispatch_behavior_stable (s : RegState)
    (hnd : (s.dispatch.map Prod.fst).Nodup)
    (hrk : ∀ p ∈ s.dispatch, p.2 ∈ s.rank) :
    (registerStep (registerStep s)).dispatch = (registerStep s).dispatch ∧
      (registerStep (registerStep s)).rank = (registerStep s).rank ++ ["Candidate"] ∧
      (∀ c, c ∈ (registerStep s).rank →
        rankIndex (registerStep (registerStep s)).rank c =
          rankIndex (registerStep s).rank c) ∧
      (registerStep (registerStep s)).behavior = (registerStep s).behavior := by
  have hnd1 : (((registerStep s).dispatch).map Prod.fst).Nodup :=
    nodup_keys_dictUpdate _ _ _ hnd
  have hdd : dictUpdate (registerStep s).dispatch "Candidate" "Candidate" =
      (registerStep s).dispatch :=
    dictUpdate_stable _ _ _ (mem_dictUpdate_self _ _ _)
      (fun q hq => keyed_dictUpdate _ _ _ q hq)
  refine ⟨hdd, rfl, ?_, ?_⟩
  · intro c hc
    show rankIndex ((registerStep s).rank ++ ["Candidate"]) c =
      rankIndex (registerStep s).rank c
    unfold rankIndex
    exact List.indexOf_append_of_mem hc
  · show regLoop ((registerStep s).rank ++ ["Candidate"])
        (dictUpdate (registerStep s).dispatch "Candidate" "Candidate")
        ((registerStep s).behavior) = (registerStep s).behavior
    rw [hdd]
    funext k
    obtain ⟨op, l, r⟩ := k
    by_cases hw : loopWrites (registerStep s).dispatch (op, l, r)
    · obtain ⟨p, hp, q, hq, h1, h2, hg⟩ := hw
      have h1' : l = p.1 := h1
      have h2' : r = q.1 := h2
      have hp' : (l, p.2) ∈ (registerStep s).dispatch := by
        rw [h1']
        exact hp
      have hq' : (r, q.2) ∈ (registerStep s).dispatch := by
        rw [h2']
        exact hq
      have hg' : l = "Candidate" ∨ r = "Candidate" := by
        rw [h1', h2']
        exact hg
      have hv2 := regLoop_written ((registerStep s).rank ++ ["Candidate"])
        (registerStep s).dispatch ((registerStep s).behavior) l p.2 r q.2
        hnd1 hp' hq' hg' op
      have hv1 := regLoop_written (registerStep s).rank (registerStep s).dispatch
        s.behavior l p.2 r q.2 hnd1 hp' hq' hg' op
      have hb1 : (registerStep s).behavior (op, l, r) =
          regLoop (registerStep s).rank (registerStep s).dispatch s.behavior (op, l, r) :=
        rfl
      rw [hv2, hb1, hv1]
      have hmin : minByRank ((registerStep s).rank ++ ["Candidate"]) p.2 q.2 =
          minByRank (registerStep s).rank p.2 q.2 :=
        minByRank_append_stable _ _ _ _ (mem_rank_after_update s p hrk hp)
          (mem_rank_after_update s q hrk hq)
      rw [hmin]
    · exact regLoop_not_written _ _ _ _ hw

/-- Witness for C6 (amended) on the modelled initial registries. -/
theorem register_twice_dispatch_behavior_stable_witness :
    ((initState.dispatch.map Prod.fst).Nodup ∧
        (∀ p ∈ initState.dispatch, p.2 ∈ initState.rank)) ∧
      (registerStep (registerStep initState)).dispatch =
        (registerStep initState).dispatch ∧
      (registerStep (registerStep initState)).rank =
        (registerStep initState).rank ++ ["Candidate"] ∧
      (∀ c, c ∈ (registerStep initState).rank →
        rankIndex (registerStep (registerStep initState)).rank c =
          rankIndex (registerStep initState).rank c) ∧
      (registerStep (registerStep initState)).behavior =
        (registerStep initState).behavior :=
  ⟨⟨by decide, by decide⟩,
    register_twice_dispatch_behavior_stable initState (by decide) (by decide)⟩

theorem akSub_ok_of_compat (a b : Arr) (h : compatArr a b = true) :
    ∃ n, broadcastLen a.length b.length = some n ∧
      akSub a b = .ok (List.zipWith (· - ·) (bcast a n) (bcast b n)) := by
  unfold compatArr at h
  rcases ho : broadcastLen a.length b.length with _ | n
  · rw [ho] at h
    simp [Option.isSome] at h
  · exact ⟨n, rfl, by unfold akSub; rw [ho]⟩

/-- C10: `Candidate` defines no `subtract` of its own (its body defines
only `add` and `sum`), so subtraction between Candidates resolves along the
method-resolution order to the `subtract` inherited from the external
`LorentzVector` base; the registered subtraction entry for the
`("Candidate", "Candidate")` pair is the Candidate class's bound
`subtract`, the inherited result is determined solely by `x`, `y`, `z`,
`t` (and the behavior reference) — the charges never enter — and the
resulting record has no `charge` field at all, so its charge in particular
never equals the elementwise `A.charge - B.charge`. -/
theorem candidate_subtract_inherited_no_charge :
    classDefines "Candidate" "subtract" = false ∧
      resolveMethod candidateMro "subtract" = some "LorentzVector" ∧
      resolveMethod candidateMro "add" = some "Candidate" ∧
      (registerStep initState).behavior (Op.subtract, "Candidate", "Candidate") =
        some ⟨"Candidate", Op.subtract⟩ ∧
      (∀ a a' b : Candidate, a.x = a'.x → a.y = a'.y → a.z = a'.z → a.t = a'.t →
        a.behavior = a'.behavior →
        LorentzVector.subtract a b = LorentzVector.subtract a' b) ∧
      (∀ a b : Candidate, compatible a b = true →
        ∃ r, LorentzVector.subtract a b = .ok r ∧
          akSub a.x b.x = .ok r.x ∧ akSub a.y b.y = .ok r.y ∧
          akSub a.z b.z = .ok r.z ∧ akSub a.t b.t = .ok r.t ∧
          r.charge = none ∧ ∀ l : Arr, ¬ r.charge = some l) := by
  refine ⟨rfl, rfl, rfl, by decide, ?_, ?_⟩
  · intro a a' b hx hy hz ht hb
    unfold LorentzVector.subtract
    rw [hx, hy, hz, ht, hb]
  · intro a b h
    unfold compatible at h
    simp only [Bool.and_eq_true] at h
    obtain ⟨⟨⟨⟨h1, h2⟩, h3⟩, h4⟩, _⟩ := h
    obtain ⟨nx, hnx, hx⟩ := akSub_ok_of_compat _ _ h1
    obtain ⟨ny, hny, hy⟩ := akSub_ok_of_compat _ _ h2
    obtain ⟨nz, hnz, hz⟩ := akSub_ok_of_compat _ _ h3
    obtain ⟨nt, hnt, ht⟩ := akSub_ok_of_compat _ _ h4
    refine ⟨⟨"LorentzVector", _, _, _, _, none, a.behavior⟩, ?_, hx, hy, hz, ht, rfl, ?_⟩
    · unfold LorentzVector.subtract
      rw [hx, hy, hz, ht]
      rfl
    · intro l hl
      cases hl

/-- Witness for C10's universally quantified parts at concrete candidates
with charges `+1` and `-1`: the subtraction result carries no charge. -/
theorem candidate_subtract_inherited_no_charge_witness :
    compatible ⟨"Candidate", [1], [2], [3], [4], [1], 0⟩
        ⟨"Candidate", [1], [1], [1], [1], [-1], 0⟩ = true ∧
      ∃ r, LorentzVector.subtract ⟨"Candidate", [1], [2], [3], [4], [1], 0⟩
            ⟨"Candidate", [1], [1], [1], [1], [-1], 0⟩ = .ok r ∧
        akSub [1] [1] = .ok r.x ∧ akSub [2] [1] = .ok r.y ∧
        akSub [3] [1] = .ok r.z ∧ akSub [4] [1] = .ok r.t ∧
        r.charge = none ∧ ∀ l : Arr, ¬ r.charge = some l :=
  ⟨by decide, candidate_subtract_inherited_no_charge.2.2.2.2.2
    ⟨"Candidate", [1], [2], [3], [4], [1], 0⟩
    ⟨"Candidate", [1], [1], [1], [1], [-1], 0⟩ (by decide)⟩
